import Mathlib

/-!
Shallow embedding of the core of the `speaky` repository, and proofs about it.

The embedding covers:
* the per-key press-interval set `KeyPresses` and its coalescing `add`
  (src/apps/pitch/src/piano_roll.rs, duplicated in src/apps/pitch/src/analysis.rs);
* the window enumeration of `analyze` (src/apps/pitch/src/analysis.rs);
* the piano-key / note / frequency conversions (src/apps/pitch/src/key.rs);
* `Spectrum::shift` (src/common/src/spectrum.rs);
* the `midi_thread` note-scheduling loop (src/apps/pitch/src/midi.rs).

Machine integers are modelled as `Nat`/`Int` with explicit saturation and
wrapping where the Rust semantics makes them observable; operations that can
panic (`usize` underflow, out-of-range slicing) return `Option`, with `none`
standing for the panic. `f32` computations on frequencies are modelled over
the reals; `f32` rounding error is not modelled (every numeric fact proved
below is far from any rounding boundary).

The Rust `BTreeMap<K, V>` type is modelled as a strictly-sorted association list
`List (Nat × V)`; the operations below implement exactly the lookups the
source performs (`range(..k).next_back()`, `range(k..).next()`, `insert`,
`remove`, in-place mutation through `range_mut`).
-/

/-- Last entry of the (sorted) association list whose key is strictly below
`key`; mirrors `map.range(..key).next_back()` on a `BTreeMap`. -/
def findLT {α : Type} : List (Nat × α) → Nat → Option (Nat × α)
  | [], _ => none
  | (k, v) :: rest, key =>
    if k < key then
      match findLT rest key with
      | some r => some r
      | none => some (k, v)
    else
      none

/-- First entry of the (sorted) association list whose key is at least `key`;
mirrors `map.range(key..).next()` on a `BTreeMap`. -/
def findGE {α : Type} : List (Nat × α) → Nat → Option (Nat × α)
  | [], _ => none
  | (k, v) :: rest, key =>
    if key ≤ k then some (k, v) else findGE rest key

/-- Value stored at `key`, mirroring `map.get(&key)`. -/
def lookupKey {α : Type} (l : List (Nat × α)) (key : Nat) : Option α :=
  (l.find? (fun p => p.1 == key)).map (fun p => p.2)

/-- Insertion into a sorted association list, replacing an existing binding;
mirrors `map.insert(key, v)` on a `BTreeMap`. -/
def insertSorted {α : Type} : List (Nat × α) → Nat → α → List (Nat × α)
  | [], key, v => [(key, v)]
  | (k, w) :: rest, key, v =>
    if key < k then (key, v) :: (k, w) :: rest
    else if key = k then (key, v) :: rest
    else (k, w) :: insertSorted rest key v

/-- Removal of the binding at `key`; mirrors `map.remove(&key)`. -/
def eraseKey {α : Type} (l : List (Nat × α)) (key : Nat) : List (Nat × α) :=
  l.filter (fun p => p.1 ≠ key)

/-- Replace the value stored at `key`, keeping the position; mirrors mutating
through the reference obtained from `range_mut(..k).next_back()`. -/
def updateValue {α : Type} (l : List (Nat × α)) (key : Nat) (v : α) : List (Nat × α) :=
  l.map (fun p => if p.1 = key then (key, v) else p)

/-- Keys are strictly increasing along the list: the well-formedness invariant
of the `BTreeMap` model. -/
def KeysSorted {α : Type} (l : List (Nat × α)) : Prop :=
  l.Pairwise (fun a b => a.1 < b.1)

theorem mem_insertSorted {α : Type} (l : List (Nat × α)) (key : Nat) (v : α) (b : Nat × α)
    (hb : b ∈ insertSorted l key v) : b = (key, v) ∨ b ∈ l := by
  induction l with
  | nil => simpa [insertSorted] using hb
  | cons p rest ih =>
    obtain ⟨k, w⟩ := p
    by_cases h1 : key < k
    · rw [insertSorted, if_pos h1] at hb
      rcases List.mem_cons.mp hb with hb | hb
      · exact Or.inl hb
      · exact Or.inr hb
    · by_cases h2 : key = k
      · rw [insertSorted, if_neg h1, if_pos h2] at hb
        rcases List.mem_cons.mp hb with hb | hb
        · exact Or.inl hb
        · exact Or.inr (List.mem_cons_of_mem _ hb)
      · rw [insertSorted, if_neg h1, if_neg h2] at hb
        rcases List.mem_cons.mp hb with hb | hb
        · exact Or.inr (hb ▸ List.mem_cons_self _ _)
        · rcases ih hb with hb' | hb'
          · exact Or.inl hb'
          · exact Or.inr (List.mem_cons_of_mem _ hb')

theorem keysSorted_insertSorted {α : Type} (l : List (Nat × α)) (key : Nat) (v : α)
    (h : KeysSorted l) : KeysSorted (insertSorted l key v) := by
  induction l with
  | nil => simp [insertSorted, KeysSorted]
  | cons p rest ih =>
    obtain ⟨k, w⟩ := p
    rw [KeysSorted, List.pairwise_cons] at h
    obtain ⟨hhead, htail⟩ := h
    by_cases h1 : key < k
    · rw [KeysSorted, insertSorted, if_pos h1]
      refine List.pairwise_cons.mpr ⟨?_, List.pairwise_cons.mpr ⟨hhead, htail⟩⟩
      intro b hb
      rcases List.mem_cons.mp hb with hb | hb
      · simp [hb, h1]
      · exact lt_trans h1 (hhead b hb)
    · by_cases h2 : key = k
      · rw [KeysSorted, insertSorted, if_neg h1, if_pos h2]
        refine List.pairwise_cons.mpr ⟨?_, htail⟩
        intro b hb
        simpa [h2] using hhead b hb
      · rw [KeysSorted, insertSorted, if_neg h1, if_neg h2]
        refine List.pairwise_cons.mpr ⟨?_, ih htail⟩
        intro b hb
        have hmem := mem_insertSorted rest key v b hb
        rcases hmem with hb' | hb'
        · rw [hb']
          omega
        · exact hhead b hb'

theorem keysSorted_eraseKey {α : Type} (l : List (Nat × α)) (key : Nat)
    (h : KeysSorted l) : KeysSorted (eraseKey l key) :=
  List.Pairwise.sublist (List.filter_sublist l) h

theorem keysSorted_updateValue {α : Type} (l : List (Nat × α)) (key : Nat) (v : α)
    (h : KeysSorted l) : KeysSorted (updateValue l key v) := by
  refine List.Pairwise.map _ ?_ h
  intro a b hab
  by_cases ha : a.1 = key <;> by_cases hb : b.1 = key <;>
    simp [ha, hb] <;> omega

theorem lookupKey_insertSorted {α : Type} (l : List (Nat × α)) (key : Nat) (v : α) :
    lookupKey (insertSorted l key v) key = some v := by
  induction l with
  | nil => simp [insertSorted, lookupKey]
  | cons p rest ih =>
    obtain ⟨k, w⟩ := p
    by_cases h1 : key < k
    · simp [insertSorted, if_pos h1, lookupKey]
    · by_cases h2 : key = k
      · simp [insertSorted, if_neg h1, if_pos h2, lookupKey]
      · rw [insertSorted, if_neg h1, if_neg h2]
        have hne : ((k, w).1 == key) = false := by
          simp only [beq_eq_false_iff_ne, ne_eq]
          omega
        rw [lookupKey, List.find?_cons, hne]
        exact ih

/-!
## KeyPresses (src/apps/pitch/src/piano_roll.rs, lines 17-179; the same type
is duplicated verbatim in src/apps/pitch/src/analysis.rs, lines 91-252)

`KeyStart` is `u128` milliseconds. `KeyDuration` is `std::time::Duration`,
modelled by its total nanosecond count: `Duration::as_millis()` truncates to
whole milliseconds while `Duration` addition is exact, and both are observable
in `add`. Intensity is an `f32` carried along unchanged; it is modelled as a
rational.
-/

structure KeyPressInfo where
  duration : Nat
  intensity : ℚ
deriving DecidableEq, Repr

structure KeyPress where
  start : Nat
  duration : Nat
  intensity : ℚ
deriving DecidableEq, Repr

/-- Truncating conversion mirroring `Duration::as_millis()` on a duration held
as nanoseconds. -/
def durationAsMillis (nanos : Nat) : Nat :=
  nanos / 1000000

/-- Construct the `KeyPress` whose duration is a whole number of milliseconds,
as in the scenarios of the specification. -/
def KeyPress.ofMillis (startMs durMs : Nat) (intensity : ℚ) : KeyPress :=
  ⟨startMs, durMs * 1000000, intensity⟩

/-- The `key_list: BTreeMap<KeyStart, KeyPressInfo>` backing `KeyPresses`. -/
abbrev KeyPresses := List (Nat × KeyPressInfo)

/-- Second half of `KeyPresses::add`: the attempt to join with the note after
`keypress` (`range(keypress.start..).next()`), followed by the unconditional
`insert` (piano_roll.rs lines 153-172). -/
def KeyPresses.addAfter (m : KeyPresses) (keypress : KeyPress) : KeyPresses :=
  match findGE m keypress.start with
  | some (next_key_start, next_info) =>
    if keypress.start + durationAsMillis keypress.duration = next_key_start then
      insertSorted (eraseKey m next_key_start) keypress.start
        ⟨keypress.duration + next_info.duration, keypress.intensity⟩
    else
      insertSorted m keypress.start ⟨keypress.duration, keypress.intensity⟩
  | none => insertSorted m keypress.start ⟨keypress.duration, keypress.intensity⟩

/-- `KeyPresses::add` (piano_roll.rs lines 134-173): first try to extend the
interval immediately preceding `keypress.start` in place (returning early on
success), otherwise fall through to `addAfter`. -/
def KeyPresses.add (m : KeyPresses) (keypress : KeyPress) : KeyPresses :=
  match findLT m keypress.start with
  | some (previous_key_start, previous_info) =>
    if previous_key_start + durationAsMillis previous_info.duration = keypress.start then
      updateValue m previous_key_start
        ⟨previous_info.duration + keypress.duration, previous_info.intensity⟩
    else
      KeyPresses.addAfter m keypress
  | none => KeyPresses.addAfter m keypress

/-- Building a `KeyPresses` set by repeated `add` starting from `new()`
(the `FromIterator`/`Extend` impls of piano_roll.rs). -/
def KeyPresses.ofList (presses : List KeyPress) : KeyPresses :=
  presses.foldl KeyPresses.add []

theorem keysSorted_addAfter (m : KeyPresses) (kp : KeyPress) (h : KeysSorted m) :
    KeysSorted (KeyPresses.addAfter m kp) := by
  rw [KeyPresses.addAfter]
  rcases hfind : findGE m kp.start with _ | ⟨nk, nv⟩
  · exact keysSorted_insertSorted _ _ _ h
  · dsimp only
    split
    · exact keysSorted_insertSorted _ _ _ (keysSorted_eraseKey _ _ h)
    · exact keysSorted_insertSorted _ _ _ h

theorem keysSorted_add (m : KeyPresses) (kp : KeyPress) (h : KeysSorted m) :
    KeysSorted (KeyPresses.add m kp) := by
  rw [KeyPresses.add]
  rcases hfind : findLT m kp.start with _ | ⟨pk, pv⟩
  · exact keysSorted_addAfter _ _ h
  · dsimp only
    split
    · exact keysSorted_updateValue _ _ _ h
    · exact keysSorted_addAfter _ _ h

theorem keysSorted_foldl_add (presses : List KeyPress) :
    ∀ m : KeyPresses, KeysSorted m → KeysSorted (presses.foldl KeyPresses.add m) := by
  induction presses with
  | nil => intro m h; simpa using h
  | cons p rest ih =>
    intro m h
    exact ih _ (keysSorted_add m p h)

theorem keysSorted_ofList (presses : List KeyPress) :
    KeysSorted (KeyPresses.ofList presses) :=
  keysSorted_foldl_add presses [] (List.Pairwise.nil)

/-!
## Window enumeration of `analyze` (src/apps/pitch/src/analysis.rs, lines 31-89)

The analysis windows are `(0..waveform.len() - window_width).step_by(step)`.
The `usize` subtraction panics when `len < window_width` (debug), or wraps and
then panics on the first out-of-range slice (release); either way the panic is
modelled by `none`. The spectrogram image is created as
`ColorImage::new([window_count, fft_width / 2], ..)`.
-/

/-- Rust `usize` subtraction: `none` models the panic on underflow. -/
def usizeSub (a b : Nat) : Option Nat :=
  if b ≤ a then some (a - b) else none

/-- The elements of `(0..n).step_by(step)`: the multiples of `step` below `n`
(`step ≥ 1`; a zero step panics in Rust and never occurs in `analyze`). -/
def windowStarts (n step : Nat) : List Nat :=
  (List.range n).filter (fun s => s % step == 0)

/-- Start indices of the analysis windows of `analyze` (analysis.rs line 40). -/
def analyzeWindowStarts (len windowWidth step : Nat) : Option (List Nat) :=
  (usizeSub len windowWidth).map (fun n => windowStarts n step)

/-- `window_count` of `analyze` (analysis.rs line 43). -/
def analyzeWindowCount (len windowWidth step : Nat) : Option Nat :=
  (analyzeWindowStarts len windowWidth step).map List.length

/-- Dimensions (columns, rows) of the spectrogram image allocated by `analyze`
(analysis.rs line 47). -/
def analyzeImageDims (len windowWidth step fftWidth : Nat) : Option (Nat × Nat) :=
  (analyzeWindowCount len windowWidth step).map (fun c => (c, fftWidth / 2))

theorem windowStarts_length (n step : Nat) (hs : 1 ≤ step) :
    (windowStarts n step).length = (n + step - 1) / step := by
  induction n with
  | zero =>
    have : step - 1 < step := by omega
    simp [windowStarts, Nat.div_eq_of_lt this]
  | succ n ih =>
    have hrange : List.range (n + 1) = List.range n ++ [n] := by
      simpa using List.range_succ (n := n)
    have hsplit : (windowStarts (n + 1) step).length =
        (windowStarts n step).length + (if n % step = 0 then 1 else 0) := by
      rw [windowStarts, hrange, List.filter_append, List.length_append]
      congr 1
      by_cases hmod : n % step = 0 <;> simp [hmod]
    have harith : n + 1 + step - 1 = (n + step - 1) + 1 := by omega
    have hdvd : (step ∣ n + step - 1 + 1) ↔ (step ∣ n) := by
      have : n + step - 1 + 1 = step + n := by omega
      rw [this]
      exact Nat.dvd_add_right (dvd_refl step)
    rw [hsplit, ih, harith, Nat.succ_div]
    by_cases hmod : n % step = 0
    · rw [if_pos hmod, if_pos (hdvd.mpr (Nat.dvd_of_mod_eq_zero hmod))]
    · rw [if_neg hmod, if_neg (fun hc => hmod (Nat.mod_eq_zero_of_dvd (hdvd.mp hc)))]

/-!
## Piano keys and musical notes (src/apps/pitch/src/key.rs)

Keys are `u8` values; the arithmetic of `as_note` (`key + 8`, `% 12`, `/ 12`)
never overflows `u8` for keys up to 88, so plain `Nat` is faithful there.
`from_concert_pitch` computes
`((12.0 * (freq / 440.0).log2()).round() as i8 + 49) as u8`: the `as i8` cast
of a float saturates to `[-128, 127]`, the `i8` addition `+ 49` overflows for
large arguments (panic in debug builds, wrap-around in release
builds), and `as u8` is a bit-cast. All three are modelled explicitly over
`Int`. Frequencies are modelled over the reals.
-/

inductive NoteLetter where
  | A
  | B
  | C
  | D
  | E
  | F
  | G
deriving DecidableEq, Repr

inductive Accidental where
  | Sharp
  | Flat
deriving DecidableEq, Repr

/-- `Accidental::semitone_delta` (key.rs lines 88-93). -/
def Accidental.semitone_delta : Accidental → Int
  | .Sharp => 1
  | .Flat => -1

/-- `NoteLetter::semitone` (key.rs lines 124-136). -/
def NoteLetter.semitone : NoteLetter → Nat
  | .C => 0
  | .D => 2
  | .E => 4
  | .F => 5
  | .G => 7
  | .A => 9
  | .B => 11

structure MusicalNote where
  letter : NoteLetter
  accidental : Option Accidental
  octave : Nat
deriving DecidableEq, Repr

/-- `MusicalNote::semitone_offset` (key.rs lines 57-59). -/
def MusicalNote.semitone_offset (n : MusicalNote) : Int :=
  (n.letter.semitone : Int) + (n.accidental.map Accidental.semitone_delta).getD 0

/-- `MusicalNote::is_same_pitch_as` (key.rs lines 52-54). -/
def MusicalNote.is_same_pitch_as (n other : MusicalNote) : Bool :=
  n.octave == other.octave && n.semitone_offset == other.semitone_offset

/-- `PianoKey::new` (key.rs lines 156-162): `Some` exactly on `1..=88`. -/
def PianoKey.new (key : Int) : Option Nat :=
  if 1 ≤ key ∧ key ≤ 88 then some key.toNat else none

/-- `PianoKey::as_note` (key.rs lines 181-211), including the `octave + 1` in
the `(8, Flat)` arm exactly as written in the source. The final catch-all arm
is the `unreachable!` of the source for offsets `12..`. -/
def PianoKey.as_note (key : Nat) (preference : Accidental) : MusicalNote :=
  let key_from_c0 := key + 8
  let note_offset := key_from_c0 % 12
  let octave := key_from_c0 / 12
  match note_offset, preference with
  | 0, _ => ⟨.C, none, octave⟩
  | 1, .Sharp => ⟨.C, some .Sharp, octave⟩
  | 1, .Flat => ⟨.D, some .Flat, octave⟩
  | 2, _ => ⟨.D, none, octave⟩
  | 3, .Sharp => ⟨.D, some .Sharp, octave⟩
  | 3, .Flat => ⟨.E, some .Flat, octave⟩
  | 4, _ => ⟨.E, none, octave⟩
  | 5, _ => ⟨.F, none, octave⟩
  | 6, .Sharp => ⟨.F, some .Sharp, octave⟩
  | 6, .Flat => ⟨.G, some .Flat, octave⟩
  | 7, _ => ⟨.G, none, octave⟩
  | 8, .Sharp => ⟨.G, some .Sharp, octave⟩
  | 8, .Flat => ⟨.A, some .Flat, octave + 1⟩
  | 9, _ => ⟨.A, none, octave⟩
  | 10, .Sharp => ⟨.A, some .Sharp, octave⟩
  | 10, .Flat => ⟨.B, some .Flat, octave⟩
  | 11, _ => ⟨.B, none, octave⟩
  | _, _ => ⟨.C, none, octave⟩

/-- Rust `f32::round`: round half away from zero, producing the integer the
subsequent `as i8` cast inspects. -/
noncomputable def rustRound (x : ℝ) : Int :=
  if 0 ≤ x then ⌊x + 1 / 2⌋ else ⌈x - 1 / 2⌉

/-- Saturating float-to-`i8` cast (`as i8` on a rounded float). -/
def satCastI8 (n : Int) : Int :=
  if n < -128 then -128 else if 127 < n then 127 else n

/-- Wrap-around of an `i8` arithmetic result: release-mode overflow
semantics. -/
def wrapI8 (n : Int) : Int :=
  (n + 128) % 256 - 128

/-- The `i8` addition overflows: debug builds panic here, release builds wrap. -/
def i8AddOverflows (a b : Int) : Prop :=
  a + b < -128 ∨ 127 < a + b

instance (a b : Int) : Decidable (i8AddOverflows a b) := by
  unfold i8AddOverflows
  infer_instance

/-- Bit-cast `as u8` of an `i8` value. -/
def i8AsU8 (n : Int) : Int :=
  n % 256

/-- The rounded semitone distance from A4:
`(12.0 * (freq / 440.0).log2()).round()` as an integer, after the saturating
`as i8` cast. -/
noncomputable def fcpSemitone (freq : ℝ) : Int :=
  satCastI8 (rustRound (12 * Real.logb 2 (freq / 440)))

/-- `PianoKey::from_concert_pitch` (key.rs lines 165-167), with release-mode
wrapping on the `i8` addition `+ 49`; `i8AddOverflows (fcpSemitone freq) 49`
marks the inputs on which debug builds panic instead. -/
noncomputable def PianoKey.from_concert_pitch (freq : ℝ) : Option Nat :=
  PianoKey.new (i8AsU8 (wrapI8 (fcpSemitone freq + 49)))

/-- `PianoKey::concert_pitch` (key.rs lines 169-174): `(2^(1/12))^(key - 49)`.
The advertised factor 440 is absent from the source. -/
noncomputable def PianoKey.concert_pitch (key : Nat) : ℝ :=
  ((2 : ℝ) ^ ((1 : ℝ) / 12)) ^ ((key : Int) - 49)

theorem logb_two_440_bounds :
    (209 : ℝ) / 24 < Real.logb 2 440 ∧ Real.logb 2 440 < (211 : ℝ) / 24 := by
  have h2 : (1 : ℝ) < 2 := by norm_num
  have h440 : (0 : ℝ) < 440 := by norm_num
  constructor
  · rw [Real.lt_logb_iff_rpow_lt h2 h440]
    have hpow : ((2 : ℝ) ^ ((209 : ℝ) / 24)) ^ (24 : ℕ) < (440 : ℝ) ^ (24 : ℕ) := by
      have hl : ((2 : ℝ) ^ ((209 : ℝ) / 24)) ^ (24 : ℕ) = (2 : ℝ) ^ (209 : ℕ) := by
        rw [← Real.rpow_natCast ((2 : ℝ) ^ ((209 : ℝ) / 24)) 24,
          ← Real.rpow_mul (by norm_num : (0 : ℝ) ≤ 2)]
        norm_num
      rw [hl]
      norm_num
    exact lt_of_pow_lt_pow_left₀ 24 (le_of_lt h440) hpow
  · rw [Real.logb_lt_iff_lt_rpow h2 h440]
    have hpow : (440 : ℝ) ^ (24 : ℕ) < ((2 : ℝ) ^ ((211 : ℝ) / 24)) ^ (24 : ℕ) := by
      have hr : ((2 : ℝ) ^ ((211 : ℝ) / 24)) ^ (24 : ℕ) = (2 : ℝ) ^ (211 : ℕ) := by
        rw [← Real.rpow_natCast ((2 : ℝ) ^ ((211 : ℝ) / 24)) 24,
          ← Real.rpow_mul (by norm_num : (0 : ℝ) ≤ 2)]
        norm_num
      rw [hr]
      norm_num
    exact lt_of_pow_lt_pow_left₀ 24 (by positivity) hpow

theorem fcpSemitone_one : fcpSemitone 1 = -105 := by
  have hb := logb_two_440_bounds
  have h1 : 12 * Real.logb 2 ((1 : ℝ) / 440) = -(12 * Real.logb 2 440) := by
    rw [one_div, Real.logb_inv]
    ring
  rw [fcpSemitone, h1]
  have hylo : (209 : ℝ) / 2 < 12 * Real.logb 2 440 := by linarith [hb.1]
  have hyhi : 12 * Real.logb 2 440 < (211 : ℝ) / 2 := by linarith [hb.2]
  have hneg : ¬ (0 ≤ -(12 * Real.logb 2 440)) := by linarith
  rw [rustRound, if_neg hneg]
  have hceil : ⌈-(12 * Real.logb 2 440) - 1 / 2⌉ = (-105 : ℤ) := by
    rw [Int.ceil_eq_iff]
    constructor
    · push_cast
      linarith
    · push_cast
      linarith
  rw [hceil]
  decide

theorem fcpSemitone_440 : fcpSemitone 440 = 0 := by
  have h : (440 : ℝ) / 440 = 1 := by norm_num
  rw [fcpSemitone, h, Real.logb_one, mul_zero, rustRound, if_pos le_rfl]
  have hfloor : ⌊(0 : ℝ) + 1 / 2⌋ = (0 : ℤ) := by
    rw [Int.floor_eq_iff]
    constructor <;> norm_num
  rw [hfloor]
  decide

theorem fcpSemitone_56320 : fcpSemitone 56320 = 84 := by
  have h : (56320 : ℝ) / 440 = 128 := by norm_num
  have h128 : Real.logb 2 (128 : ℝ) = ((7 : ℕ) : ℝ) := by
    have he : (128 : ℝ) = (2 : ℝ) ^ (((7 : ℕ) : ℝ)) := by
      rw [Real.rpow_natCast]
      norm_num
    rw [he, Real.logb_rpow (by norm_num : (0 : ℝ) < 2) (by norm_num : (2 : ℝ) ≠ 1)]
  rw [fcpSemitone, h, h128, show (12 : ℝ) * ((7 : ℕ) : ℝ) = 84 by norm_num,
    rustRound, if_pos (by norm_num : (0 : ℝ) ≤ 84)]
  have hfloor : ⌊(84 : ℝ) + 1 / 2⌋ = (84 : ℤ) := by
    rw [Int.floor_eq_iff]
    constructor <;> norm_num
  rw [hfloor]
  decide

theorem concert_pitch_49 : PianoKey.concert_pitch 49 = 1 := by
  rw [PianoKey.concert_pitch]
  norm_num

/-!
## `Spectrum::shift` (src/common/src/spectrum.rs, lines 250-263)

A spectrum coefficient (`Complex<f32>`) is modelled as a pair of rationals.
The method builds `zeros(shift) ++ buckets[..(half_spectrum - shift)] ++
buckets[(half_spectrum + shift)..] ++ zeros(shift)`; the `usize` subtraction
and the two slicings panic out of range (`none`).
-/

abbrev Complex32 := ℚ × ℚ

def complexZero : Complex32 := (0, 0)

/-- Rust slice `&l[..e]`: panics (`none`) when `e > l.len()`. -/
def sliceTo {α : Type} (l : List α) (e : Nat) : Option (List α) :=
  if e ≤ l.length then some (l.take e) else none

/-- Rust slice `&l[s..]`: panics (`none`) when `s > l.len()`. -/
def sliceFrom {α : Type} (l : List α) (s : Nat) : Option (List α) :=
  if s ≤ l.length then some (l.drop s) else none

/-- `Spectrum::shift`: in debug builds `half_spectrum - shift` already panics
when `shift > width / 2`; in release builds the wrapped difference makes
`buckets[..huge]` panic instead. Both are the `none` of `usizeSub`/`sliceTo`. -/
def Spectrum.shift (width : Nat) (buckets : List Complex32) (shift : Nat) :
    Option (List Complex32) :=
  let half_spectrum := width / 2
  match usizeSub half_spectrum shift with
  | none => none
  | some low_end =>
    match sliceTo buckets low_end, sliceFrom buckets (half_spectrum + shift) with
    | some low, some high =>
      some (List.replicate shift complexZero ++ low ++ high ++
        List.replicate shift complexZero)
    | _, _ => none

/-!
## The `midi_thread` dispatch loop (src/apps/pitch/src/midi.rs, lines 174-241)

One loop iteration consumes one `MidiAction` (the winner of
`future::or(commands_fut, notes_off_fut)`). The model covers the
`MidiConnection::Connected` arms, the ones that emit commands; `note_off` is
the `BTreeMap<MidiNote, Instant>`, with instants as natural numbers.
`playNote note duration now` is `NewCommand(PlayNote(note, duration))`
processed when `Instant::now()` reads `now`; `timerWake note` is a fired
note-off timer; `channelClosed` is `RecvError::Disconnected`, on which the
loop returns at once. A returned loop processes nothing further, which the
model expresses by making `returned` states absorbing.
-/

inductive MidiEvent where
  | noteOn (note : Nat)
  | noteOff (note : Nat)
deriving DecidableEq, Repr

inductive MidiAction where
  | channelClosed
  | playNote (note duration now : Nat)
  | timerWake (note : Nat)
deriving DecidableEq, Repr

structure MidiState where
  note_off : List (Nat × Nat)
  events : List MidiEvent
  returned : Bool
deriving DecidableEq, Repr

def midiInit : MidiState :=
  ⟨[], [], false⟩

/-- One iteration of the `midi_thread` loop (midi.rs lines 186-240). On
`PlayNote` it sends `NoteOn`, then runs
`let pre_instant = note_off.entry(note).or_insert(deadline);
 *pre_instant = deadline.max(*pre_instant);`
with `deadline = Instant::now() + duration`. On a timer wake it removes the
entry and sends `NoteOff`. On `ChannelClosed` it returns immediately. -/
def midiStep (s : MidiState) (a : MidiAction) : MidiState :=
  if s.returned then s
  else
    match a with
    | .channelClosed => { s with returned := true }
    | .playNote note duration now =>
      let deadline := now + duration
      let pre_instant := (lookupKey s.note_off note).getD deadline
      { s with
        events := s.events ++ [MidiEvent.noteOn note],
        note_off := insertSorted s.note_off note (max deadline pre_instant) }
    | .timerWake note =>
      { s with
        note_off := eraseKey s.note_off note,
        events := s.events ++ [MidiEvent.noteOff note] }

/-- The state of the dispatch loop after consuming `actions`, starting from
the freshly spawned thread (empty `note_off`, nothing sent). -/
def midiRun (actions : List MidiAction) : MidiState :=
  actions.foldl midiStep midiInit

theorem keysSorted_midiStep (s : MidiState) (a : MidiAction)
    (h : KeysSorted s.note_off) : KeysSorted (midiStep s a).note_off := by
  rw [midiStep.eq_def]
  by_cases hr : s.returned
  · rwa [if_pos hr]
  · rw [if_neg hr]
    cases a with
    | channelClosed => exact h
    | playNote note duration now => exact keysSorted_insertSorted _ _ _ h
    | timerWake note => exact keysSorted_eraseKey _ _ h

theorem keysSorted_midiFold (actions : List MidiAction) :
    ∀ s : MidiState, KeysSorted s.note_off →
      KeysSorted (actions.foldl midiStep s).note_off := by
  induction actions with
  | nil => intro s h; simpa using h
  | cons a rest ih =>
    intro s h
    exact ih _ (keysSorted_midiStep s a h)

theorem keysSorted_midiRun (actions : List MidiAction) :
    KeysSorted (midiRun actions).note_off :=
  keysSorted_midiFold actions midiInit List.Pairwise.nil

theorem midiStep_returned (s : MidiState) (a : MidiAction)
    (h : s.returned = true) : midiStep s a = s := by
  rw [midiStep.eq_def, if_pos h]

theorem midiFold_returned (actions : List MidiAction) :
    ∀ s : MidiState, s.returned = true → actions.foldl midiStep s = s := by
  induction actions with
  | nil => intro s _; rfl
  | cons a rest ih =>
    intro s h
    rw [List.foldl_cons, midiStep_returned s a h]
    exact ih s h

/-!
## Claims
-/

/-- Claim C1: the specification requires that every note that received a
`NoteOn` before the session is cancelled or the command channel closes
receives a matching `NoteOff` before the dispatch loop exits. The code
violates this: on `RecvError::Disconnected` the loop returns immediately,
abandoning the pending `note_off` entry, so a session that receives
`PlayNote(69, 500)` at time 0 and whose channel then closes emits the
`NoteOn` but never the matching `NoteOff` — not in the loop, and not in any
continuation, since the loop has returned. -/
theorem c1_channel_close_drops_note_off :
    (midiRun [.playNote 69 500 0, .channelClosed]).returned = true ∧
    MidiEvent.noteOn 69 ∈ (midiRun [.playNote 69 500 0, .channelClosed]).events ∧
    MidiEvent.noteOff 69 ∉ (midiRun [.playNote 69 500 0, .channelClosed]).events ∧
    (midiRun [.playNote 69 500 0, .channelClosed]).note_off = [(69, 500)] ∧
    ∀ more : List MidiAction,
      (midiRun ([.playNote 69 500 0, .channelClosed] ++ more)).events =
        (midiRun [.playNote 69 500 0, .channelClosed]).events := by
  refine ⟨by decide, by decide, by decide, by decide, ?_⟩
  intro more
  have h : midiRun ([MidiAction.playNote 69 500 0, MidiAction.channelClosed] ++ more) =
      midiRun [MidiAction.playNote 69 500 0, MidiAction.channelClosed] := by
    rw [midiRun, List.foldl_append]
    exact midiFold_returned more _ (by decide)
  rw [h]

/-- Claim C4: in the note scheduler, at most one pending off-deadline exists
per distinct note number at any time (the keys of `note_off` are duplicate
free in every reachable state), and when a play-deadline fires for a note
that already has a pending off-deadline `d0`, the stored off-deadline becomes
`max (now + duration) d0` — in particular it is never shortened. -/
theorem c4_note_off_unique_and_max :
    (∀ actions : List MidiAction,
      List.Nodup ((midiRun actions).note_off.map Prod.fst)) ∧
    (∀ (s : MidiState) (note duration now d0 : Nat), s.returned = false →
      lookupKey s.note_off note = some d0 →
      lookupKey (midiStep s (.playNote note duration now)).note_off note =
          some (max (now + duration) d0) ∧
        d0 ≤ max (now + duration) d0) := by
  constructor
  · intro actions
    have hs := keysSorted_midiRun actions
    have hlt : ((midiRun actions).note_off.map Prod.fst).Pairwise (· < ·) := by
      rw [List.pairwise_map]
      exact hs
    exact hlt.imp (fun hab => Nat.ne_of_lt hab)
  · intro s note duration now d0 hret hlook
    have hstep : midiStep s (.playNote note duration now) =
        { s with
          events := s.events ++ [MidiEvent.noteOn note],
          note_off := insertSorted s.note_off note
            (max (now + duration) ((lookupKey s.note_off note).getD (now + duration))) } := by
      rw [midiStep.eq_def, if_neg (by simp [hret])]
    rw [hstep, hlook]
    simp only [Option.getD_some]
    exact ⟨lookupKey_insertSorted _ _ _, le_max_right _ _⟩

/-- Witness for C4 at a concrete session: after `PlayNote(69, 500)` at time 0
the pending map has duplicate-free keys, and a second `PlayNote(69, 300)` at
time 100 (computed off-deadline 400, earlier than the pending 500) leaves the
stored off-deadline at `max (100 + 300) 500 = 500`. -/
theorem c4_note_off_unique_and_max_witness :
    List.Nodup ((midiRun [MidiAction.playNote 69 500 0]).note_off.map Prod.fst) ∧
    (lookupKey (midiStep (midiRun [MidiAction.playNote 69 500 0])
        (MidiAction.playNote 69 300 100)).note_off 69 = some (max (100 + 300) 500) ∧
      500 ≤ max (100 + 300) 500) :=
  ⟨c4_note_off_unique_and_max.1 [MidiAction.playNote 69 500 0],
   c4_note_off_unique_and_max.2 (midiRun [MidiAction.playNote 69 500 0]) 69 300 100 500
     (by decide) (by decide)⟩

/-- Claim C2 counterexample: adding the two overlapping presses `(0, 300 ms)`
and `(100, 400 ms)` of the claim to an empty set stores TWO intervals, and
they overlap (the second starts at 100 ms, before the first ends at 300 ms):
`add` merges only on exact boundary equality, so neither the claimed
single-interval outcome nor the claimed non-overlap invariant holds. -/
theorem c2_overlapping_presses_both_stored :
    KeyPresses.ofList [KeyPress.ofMillis 0 300 1, KeyPress.ofMillis 100 400 1] =
      [(0, ⟨300 * 1000000, 1⟩), (100, ⟨400 * 1000000, 1⟩)] ∧
    100 < 0 + durationAsMillis (300 * 1000000) := by
  exact ⟨by decide, by decide⟩

/-- Claim C2 as amended: for every sequence of `KeyPresses::add` operations
starting from the empty set the stored intervals have strictly increasing
(hence pairwise-distinct) start keys, and adding the two overlapping presses
`(0, 300 ms)` then `(100, 400 ms)` leaves those two intervals stored
unmerged, `(0, 300 ms)` and `(100, 400 ms)`. -/
theorem c2_add_keeps_sorted_overlap_kept :
    (∀ presses : List KeyPress, KeysSorted (KeyPresses.ofList presses)) ∧
    KeyPresses.ofList [KeyPress.ofMillis 0 300 1, KeyPress.ofMillis 100 400 1] =
      [(0, ⟨300 * 1000000, 1⟩), (100, ⟨400 * 1000000, 1⟩)] :=
  ⟨keysSorted_ofList, by decide⟩

/-- Claim C8: `KeyPresses::add` merges exactly when interval boundaries
coincide in millisecond space. Inserting `(0, 100 ms)` then `(100, 50 ms)`
into an empty set yields exactly the one stored interval `(0, 150 ms)`;
inserting `(0, 100 ms)` then `(101, 50 ms)` yields two distinct stored
intervals; and in general two presses with distinct starts end up as one
stored interval if and only if the millisecond end of one press equals the
start of the other. -/
theorem c8_add_merges_iff_boundaries_touch :
    KeyPresses.ofList [KeyPress.ofMillis 0 100 1, KeyPress.ofMillis 100 50 2] =
      [(0, ⟨150 * 1000000, 1⟩)] ∧
    KeyPresses.ofList [KeyPress.ofMillis 0 100 1, KeyPress.ofMillis 101 50 2] =
      [(0, ⟨100 * 1000000, 1⟩), (101, ⟨50 * 1000000, 2⟩)] ∧
    ∀ (s1 d1 s2 d2 : Nat) (i1 i2 : ℚ), s1 ≠ s2 →
      ((KeyPresses.ofList [⟨s1, d1, i1⟩, ⟨s2, d2, i2⟩]).length = 1 ↔
        (s1 + durationAsMillis d1 = s2 ∨ s2 + durationAsMillis d2 = s1)) := by
  refine ⟨by decide, by decide, ?_⟩
  intro s1 d1 s2 d2 i1 i2 hne
  rcases lt_trichotomy s1 s2 with hlt | heq | hgt
  · by_cases hm : s1 + durationAsMillis d1 = s2
    · simp [KeyPresses.ofList, KeyPresses.add, KeyPresses.addAfter, findLT, findGE,
        insertSorted, eraseKey, updateValue, hlt, hm]
    · have h2 : ¬ s2 ≤ s1 := by omega
      have h3 : ¬ s2 < s1 := by omega
      have h4 : ¬ s2 = s1 := by omega
      have h5 : ¬ s2 + durationAsMillis d2 = s1 := by omega
      simp [KeyPresses.ofList, KeyPresses.add, KeyPresses.addAfter, findLT, findGE,
        insertSorted, eraseKey, updateValue, hlt, hm, h2, h3, h4, h5]
  · exact absurd heq hne
  · have h1 : ¬ s1 < s2 := by omega
    have h2 : s2 ≤ s1 := le_of_lt hgt
    by_cases hm : s2 + durationAsMillis d2 = s1
    · simp [KeyPresses.ofList, KeyPresses.add, KeyPresses.addAfter, findLT, findGE,
        insertSorted, eraseKey, updateValue, h1, h2, hm, hgt]
    · have h5 : ¬ s1 + durationAsMillis d1 = s2 := by omega
      simp [KeyPresses.ofList, KeyPresses.add, KeyPresses.addAfter, findLT, findGE,
        insertSorted, eraseKey, updateValue, h1, h2, hm, hgt, h5]

/-- Witness for the general merge criterion of C8 at the second scenario of
the claim:
starts 0 and 101 differ, and the resulting set has one stored interval iff
one boundary meets the other start (here neither does). -/
theorem c8_add_merges_iff_boundaries_touch_witness :
    (0 : Nat) ≠ 101 ∧
    ((KeyPresses.ofList [⟨0, 100000000, 1⟩, ⟨101, 50000000, 2⟩]).length = 1 ↔
      (0 + durationAsMillis 100000000 = 101 ∨ 101 + durationAsMillis 50000000 = 0)) :=
  ⟨by decide,
   c8_add_merges_iff_boundaries_touch.2.2 0 100000000 101 50000000 1 2 (by decide)⟩

/-- Claim C5: the specification says a waveform shorter than one analysis
window yields an empty result, not an error. The code instead evaluates
`waveform.len() - window_width` in `usize`, which underflows for
`len = 100 < 2048 = window_width`: a panic in debug builds, and a wrapped
range whose first window slice panics in release builds — modelled as the
`none` below, where the claim expects `some []` (zero windows). -/
theorem c5_short_waveform_underflows :
    analyzeWindowStarts 100 2048 512 = none ∧
    analyzeWindowStarts 100 2048 512 ≠ some [] ∧
    (100 : Nat) < 2048 := by
  exact ⟨by decide, by decide, by decide⟩

/-- Claim C6 counterexample: with `len = 10`, `windowWidth = 5`, `step = 2`
the code enumerates window starts `0, 2, 4`, i.e. 3 windows, while the
claimed formula `floor((len - windowWidth) / step)` gives 2. -/
theorem c6_counterexample_ten_five_two :
    analyzeWindowCount 10 5 2 = some 3 ∧ (10 - 5) / 2 = 2 ∧ (3 : Nat) ≠ 2 :=
  ⟨by decide, by decide, by decide⟩

/-- Claim C6 as amended: for every waveform of length `len ≥ windowWidth` and
`step ≥ 1`, `analyze` enumerates exactly `ceil((len - windowWidth) / step)`
analysis windows — the starts are `0, step, 2*step, ..` strictly below
`len - windowWidth` — and the spectrogram image is allocated with exactly
that many columns (and `fftWidth / 2` rows). -/
theorem c6_window_count_is_ceil (len windowWidth step fftWidth : Nat)
    (hlen : windowWidth ≤ len) (hstep : 1 ≤ step) :
    analyzeWindowCount len windowWidth step =
      some ((len - windowWidth + step - 1) / step) ∧
    analyzeImageDims len windowWidth step fftWidth =
      some ((len - windowWidth + step - 1) / step, fftWidth / 2) := by
  have hsub : usizeSub len windowWidth = some (len - windowWidth) := by
    simp [usizeSub, hlen]
  have hcount : analyzeWindowCount len windowWidth step =
      some ((len - windowWidth + step - 1) / step) := by
    rw [analyzeWindowCount, analyzeWindowStarts, hsub]
    simp [windowStarts_length _ _ hstep]
  exact ⟨hcount, by rw [analyzeImageDims, hcount]; rfl⟩

/-- Witness for the amended count of C6 at `len = 10`, `windowWidth = 5`,
`step = 2`, `fftWidth = 8`: three windows and a 3-column, 4-row image. -/
theorem c6_window_count_is_ceil_witness :
    ((5 : Nat) ≤ 10 ∧ (1 : Nat) ≤ 2) ∧
    analyzeWindowCount 10 5 2 = some ((10 - 5 + 2 - 1) / 2) ∧
    analyzeImageDims 10 5 2 8 = some ((10 - 5 + 2 - 1) / 2, 8 / 2) :=
  ⟨⟨by decide, by decide⟩,
   (c6_window_count_is_ceil 10 5 2 8 (by decide) (by decide)).1,
   (c6_window_count_is_ceil 10 5 2 8 (by decide) (by decide)).2⟩

/-- Claim C7: the specification says shifting by more than half the width
yields an all-zero spectrum, but `Spectrum::shift` computes
`half_spectrum - shift` in `usize` with no shortcut (unlike the deprecated
`shift_spectrum`, which zero-fills in this case): for width 4 and shift 3
the subtraction `2 - 3` underflows — a panic, not an all-zero spectrum. -/
theorem c7_shift_beyond_half_panics :
    Spectrum.shift 4 [(1, 0), (2, 0), (3, 0), (4, 0)] 3 = none ∧
    Spectrum.shift 4 [(1, 0), (2, 0), (3, 0), (4, 0)] 3 ≠
      some (List.replicate 4 complexZero) ∧
    4 / 2 < 3 :=
  ⟨by decide, by decide, by decide⟩

/-- Claim C3: the claimed round-trip
`from_concert_pitch (concert_pitch k) = Some k` fails for every key because
`PianoKey::concert_pitch` omits the 440 Hz factor of the advertised formula
`f = 440 * 2^((key-49)/12)`: at the failing input `k = 49` (A4) the code
returns `(2^(1/12))^0 = 1.0` instead of `440.0`, and `from_concert_pitch 1`
is `None`. With the advertised frequency 440 the round trip does return
`Some 49`, confirming the missing factor is the sole defect. -/
theorem c3_round_trip_fails_missing_440 :
    PianoKey.concert_pitch 49 = 1 ∧
    PianoKey.from_concert_pitch (PianoKey.concert_pitch 49) = none ∧
    PianoKey.from_concert_pitch 440 = some 49 := by
  refine ⟨concert_pitch_49, ?_, ?_⟩
  · rw [concert_pitch_49, PianoKey.from_concert_pitch, fcpSemitone_one]
    decide
  · rw [PianoKey.from_concert_pitch, fcpSemitone_440]
    decide

/-- Claim C9: `as_note(k, Sharp)` and `as_note(k, Flat)` should denote the
same pitch for every key, but the `(8, Flat)` arm of `as_note` assigns
`A flat` to `octave + 1`: at key 12 the spellings are G sharp 1 and
A flat 2, whose octaves differ, so `is_same_pitch_as` rejects them. The
final conjunct pins the defect down exactly: over all keys `0..88` the two
spellings agree in pitch precisely when the note offset of the key is not 8. -/
theorem c9_flat_spelling_octave_off_by_one :
    PianoKey.as_note 12 Accidental.Sharp =
      ⟨NoteLetter.G, some Accidental.Sharp, 1⟩ ∧
    PianoKey.as_note 12 Accidental.Flat =
      ⟨NoteLetter.A, some Accidental.Flat, 2⟩ ∧
    MusicalNote.is_same_pitch_as (PianoKey.as_note 12 Accidental.Sharp)
      (PianoKey.as_note 12 Accidental.Flat) = false ∧
    ∀ k : Fin 89,
      MusicalNote.is_same_pitch_as (PianoKey.as_note k.val Accidental.Sharp)
        (PianoKey.as_note k.val Accidental.Flat) = ((k.val + 8) % 12 != 8) :=
  ⟨by decide, by decide, by decide, by decide⟩

/-- Claim C10 counterexample: at the concrete finite positive frequency
56320 Hz (seven octaves above A4, so `12 * log2(freq/440) = 84` exactly) the
`i8` addition `rounded + 49` inside `from_concert_pitch` computes
`84 + 49 = 133 > 127`: it overflows — a panic in debug builds, a wrap in
release builds — contradicting the claim that the function never panics or
wraps for any finite positive frequency. -/
theorem c10_counterexample_56320 :
    (0 : ℝ) < 56320 ∧ i8AddOverflows (fcpSemitone 56320) 49 := by
  refine ⟨by norm_num, ?_⟩
  rw [fcpSemitone_56320]
  decide

/-- Claim C10 as amended: for every positive frequency whose saturated
rounded semitone value is at most 78, the `i8` addition does not overflow
and `from_concert_pitch` totally returns `none` or `some k` with
`k ∈ [1, 88]`; for every frequency whose value reaches 79 (about 41 kHz and
above) the addition `+ 49` overflows: panic in debug builds, wrap in
release builds. -/
theorem c10_total_below_79_overflows_from_79 (freq : ℝ) (hpos : 0 < freq) :
    (fcpSemitone freq ≤ 78 →
      ¬ i8AddOverflows (fcpSemitone freq) 49 ∧
      (PianoKey.from_concert_pitch freq = none ∨
        ∃ k : Nat, PianoKey.from_concert_pitch freq = some k ∧ 1 ≤ k ∧ k ≤ 88)) ∧
    (79 ≤ fcpSemitone freq → i8AddOverflows (fcpSemitone freq) 49) := by
  have hlb : -128 ≤ fcpSemitone freq := by
    rw [fcpSemitone, satCastI8]
    split_ifs <;> omega
  constructor
  · intro h78
    constructor
    · rw [i8AddOverflows]
      omega
    · rw [PianoKey.from_concert_pitch, PianoKey.new]
      split_ifs with hcond
      · exact Or.inr ⟨_, rfl, by omega, by omega⟩
      · exact Or.inl rfl
  · intro h79
    have hub : fcpSemitone freq ≤ 127 := by
      rw [fcpSemitone, satCastI8]
      split_ifs <;> omega
    rw [i8AddOverflows]
    omega

/-- Witness for the amended statement of C10 at 440 Hz: the rounded semitone
value is 0 ≤ 78, no overflow happens, and the result is in range (it is in
fact `some 49`). -/
theorem c10_total_below_79_overflows_from_79_witness :
    (0 : ℝ) < 440 ∧ fcpSemitone 440 ≤ 78 ∧
    (¬ i8AddOverflows (fcpSemitone 440) 49 ∧
      (PianoKey.from_concert_pitch 440 = none ∨
        ∃ k : Nat, PianoKey.from_concert_pitch 440 = some k ∧ 1 ≤ k ∧ k ≤ 88)) := by
  refine ⟨by norm_num, ?_, (c10_total_below_79_overflows_from_79 440 (by norm_num)).1 ?_⟩
  · rw [fcpSemitone_440]
    decide
  · rw [fcpSemitone_440]
    decide
